import Mathlib

/-!
Verification of the transformer building blocks and decoding utilities of
this repository (`layers.py` and `utils.py`): scaled dot-product attention
and its mask handling, multi-headed attention's mask dispatch, label
smoothing, greedy decoding, beam-search decoding, and batch collation.

Tensors are embedded as nested lists of rationals (exact arithmetic in
place of floating point); the shape conventions follow the source
docstrings: batch `N`, query length `Lq`, key length `Lk`, model width
`d_model`, heads `h`, per-head width `d_k`.  The trained model consumed by
the decoding strategies is a black box, embedded as a function from the
current target-token sequence to the next-token log-probability vector.
Operations that PyTorch cannot compute in rationals (`sqrt`, `Softmax`,
`Dropout`) enter as explicit parameters; every claim proved here is
independent of their values.
-/

namespace NMT

/-- A vector of rationals (one tensor row). -/
abbrev Vec := List ℚ

/-- A rank-2 tensor. -/
abbrev Mat := List Vec

/-- A rank-3 tensor. -/
abbrev T3 := List Mat

/-- A rank-4 tensor. -/
abbrev T4 := List T3

/-- Dot product of two rows (`torch.matmul` on matching vectors). -/
def dot (a b : Vec) : ℚ := (List.zipWith (fun x y => x * y) a b).sum

/-- Elementwise sum of two rows. -/
def addVec (a b : Vec) : Vec := List.zipWith (fun x y => x + y) a b

/-- Size of dimension 1 of a rank-≥2 tensor (length of its first row). -/
def dim1 (t : List (List α)) : Nat := (t.headD []).length

/-- Size of dimension 2 of a rank-≥3 tensor. -/
def dim2 (t : List (List (List α))) : Nat := ((t.headD []).headD []).length

/-- Matrix transpose of a rectangular rank-2 tensor. -/
def transposeM (m : Mat) : Mat :=
  (List.range (dim1 m)).map (fun j => m.map (fun row => row.getD j 0))

/-- One output row of `torch.matmul(w, V)`: row `w` of the left factor times
the matrix `V` of shape `(Lk, d_v)`. -/
def matVecRow (w : Vec) (V : Mat) : Vec := (transposeM V).map (dot w)

/-- `nn.Linear` applied to one row: `y = W x + b`, rows of `W` indexing
output features. -/
def linRow (W : Mat) (b : Vec) (x : Vec) : Vec := addVec (W.map (dot x)) b

/-- `nn.Linear` mapped over a `(N, L, d)` tensor. -/
def linear3 (W : Mat) (b : Vec) (x : T3) : T3 :=
  x.map (fun seq => seq.map (linRow W b))

/-- A PyTorch mask argument of rank 2 (shape `(N, Lk)`) or rank 3 (shape
`(N, Lq, Lk)`), entries 0/1.  The source dispatches on `len(mask.shape)`,
which corresponds to the constructor. -/
inductive Mask where
  | m2 : List (List Nat) → Mask
  | m3 : List (List (List Nat)) → Mask

/-- `w.masked_fill(m == 0, c)` for a rank-3 tensor `w` and a rank-3 mask
`m`.  The mask must be broadcastable with the tensor: the embedding
returns the filled tensor when every mask dimension equals the tensor's
or is 1, and `none` otherwise.  (PyTorch's out-of-place `masked_fill`
would additionally expand a size-1 *tensor* dimension against a larger
mask dimension, yielding a wrongly-shaped result; the claims below only
exercise shapes where both agree: either the mask broadcasts to the
tensor, or — both mismatched dimensions exceeding 1 — PyTorch raises a
runtime shape error.) -/
def maskedFill3 (w : T3) (m : List (List (List Nat))) (c : ℚ) : Option T3 :=
  if (m.length = w.length ∨ m.length = 1) ∧
     (dim1 m = dim1 w ∨ dim1 m = 1) ∧
     (dim2 m = dim2 w ∨ dim2 m = 1) then
    some (w.mapIdx (fun n mat =>
      mat.mapIdx (fun q row =>
        row.mapIdx (fun t x =>
          let mn := if m.length = 1 then 0 else n
          let mq := if dim1 m = 1 then 0 else q
          let mt := if dim2 m = 1 then 0 else t
          if ((m.getD mn []).getD mq []).getD mt 1 = 0 then c else x))))
  else none

/-- `attention` in `layers.py`: scaled dot-product attention.
`c` stands for the positive scale `1/sqrt(d_k)` (irrational in general,
hence a parameter), `smax` for the row-wise `Softmax(dim=2)`, and `drop`
for the optional dropout (`none` when the `dropout` argument is `None`).
Scores are `query · keyᵀ` scaled; a rank-3 mask is applied directly; a
rank-2 mask is expanded by `unsqueeze(1)` followed by
`repeat([1, Lq, 1])` — where the source sets `Lq = key.shape[1]`, the
key length.  Returns `none` when `masked_fill` raises a shape error. -/
def attention (c : ℚ) (smax : Vec → Vec) (drop : Option (T3 → T3))
    (query key value : T3) (mask : Option Mask) : Option (T3 × T3) :=
  let w0 : T3 := List.zipWith
    (fun qb kb => qb.map (fun qr => kb.map (fun kr => c * dot qr kr))) query key
  let masked : Option T3 :=
    match mask with
    | some (Mask.m3 m) => maskedFill3 w0 m (-(10 ^ 9 : ℚ))
    | some (Mask.m2 m) =>
        let L := dim1 key
        maskedFill3 w0 (m.map (fun row => List.replicate L row)) (-(10 ^ 9 : ℚ))
    | none => some w0
  match masked with
  | none => none
  | some w1 =>
      let w2 := w1.map (fun mat => mat.map smax)
      let w3 := match drop with | none => w2 | some d => d w2
      some (List.zipWith (fun wb vb => wb.map (fun wr => matVecRow wr vb)) w3 value, w3)

/-- The expansion the specification prescribes for a rank-2 mask: broadcast
across the query dimension, i.e. repeat the `(N, Lk)` mask `Lq` times to
shape `(N, Lq, Lk)` where `Lq` is the query sequence length. -/
def specMask2dExpansion (Lq : Nat) (m : List (List Nat)) : List (List (List Nat)) :=
  m.map (fun row => List.replicate Lq row)

/-- `w.masked_fill(m == 0, c)` for rank-4 tensors, with the same
broadcast-or-error rule as `maskedFill3`. -/
def maskedFill4 (w : T4) (m : List (List (List (List Nat)))) (c : ℚ) : Option T4 :=
  if (m.length = w.length ∨ m.length = 1) ∧
     (dim1 m = dim1 w ∨ dim1 m = 1) ∧
     (dim2 m = dim2 w ∨ dim2 m = 1) ∧
     (dim2 (m.headD []) = dim2 (w.headD []) ∨ dim2 (m.headD []) = 1) then
    some (w.mapIdx (fun n cube =>
      cube.mapIdx (fun hh mat =>
        mat.mapIdx (fun q row =>
          row.mapIdx (fun t x =>
            let mn := if m.length = 1 then 0 else n
            let mh := if dim1 m = 1 then 0 else hh
            let mq := if dim2 m = 1 then 0 else q
            let mt := if dim2 (m.headD []) = 1 then 0 else t
            if (((m.getD mn []).getD mh []).getD mq []).getD mt 1 = 0 then c
            else x)))))
  else none

/-- Head split in `MultiHeadedAttention.forward`:
`view(N, L, h, d_k).transpose(1, 2)`, i.e. `(N, L, d_model)` to
`(N, h, L, d_k)` by slicing the feature dimension. -/
def splitHeads (h dk : Nat) (x : T3) : T4 :=
  x.map (fun seq => (List.range h).map (fun hi =>
    seq.map (fun row => (row.drop (hi * dk)).take dk)))

/-- Per-head scaled scores `query · keyᵀ / sqrt(d_k)` on split tensors. -/
def scores4 (c : ℚ) (q k : T4) : T4 :=
  List.zipWith (fun qb kb =>
    List.zipWith (fun qh kh =>
      qh.map (fun qr => kh.map (fun kr => c * dot qr kr))) qb kb) q k

/-- `MultiHeadedAttention.forward` in `layers.py`.  The four learned
linears are explicit matrices, `c` is the `1/sqrt(d_k)` scale, `smax` the
row-wise `Softmax(dim=3)` and `drop` the module's dropout.  Only a mask
whose rank is 3 is detected (`len(mask.shape)==3`): it is expanded with a
head dimension, its query axis broadcast from 1 to `Lq` if needed, and
applied with the `-1e9` sentinel.  Any other mask — in particular a rank-2
mask — leaves the scores untouched, exactly as a `None` mask does. -/
def mhaForward (h dk : Nat) (c : ℚ) (smax : Vec → Vec) (drop : T4 → T4)
    (Wq : Mat) (bq : Vec) (Wk : Mat) (bk : Vec) (Wv : Mat) (bv : Vec)
    (Wo : Mat) (bo : Vec)
    (query key value : T3) (mask : Option Mask) : Option T3 :=
  let Lq := dim1 query
  let q := splitHeads h dk (linear3 Wq bq query)
  let k := splitHeads h dk (linear3 Wk bk key)
  let v := splitHeads h dk (linear3 Wv bv value)
  let w0 := scores4 c q k
  let masked : Option T4 :=
    match mask with
    | some (Mask.m3 m) =>
        let m4 : List (List (List (List Nat))) := m.map (fun mm => List.replicate h mm)
        let m4 :=
          if dim2 m4 = 1 then
            m4.map (fun mb => mb.map (fun mh => List.replicate Lq (mh.headD [])))
          else m4
        maskedFill4 w0 m4 (-(10 ^ 9 : ℚ))
    | _ => some w0
  match masked with
  | none => none
  | some w1 =>
      let w2 := drop (w1.map (fun cube => cube.map (fun mat => mat.map smax)))
      let outH : T4 := List.zipWith (fun wb vb =>
        List.zipWith (fun wh vh => wh.map (fun wr => matVecRow wr vh)) wb vb) w2 v
      let merged : T3 := outH.map (fun cube =>
        (List.range Lq).map (fun i => (cube.map (fun mat => mat.getD i [])).flatten))
      some (linear3 Wo bo merged)

/-- One row of the smoothed target distribution built by
`LabelSmoothing.forward` in `layers.py` for true-class index `t`:
`fill_(smoothing / (size - 2))`, then `scatter_` of
`confidence = 1 - smoothing` at `t`, then the `padding_idx` column zeroed,
and finally rows whose target is `padding_idx` zeroed entirely by
`index_fill_`. -/
def labelSmoothRow (size paddingIdx : Nat) (smoothing : ℚ) (t : Nat) : Vec :=
  let base := List.replicate size (smoothing / ((size : ℚ) - 2))
  let row := (base.set t (1 - smoothing)).set paddingIdx 0
  if t = paddingIdx then List.replicate size 0 else row

/-- The full `true_dist` tensor of `LabelSmoothing.forward`, one row per
target entry. -/
def labelSmoothDist (size paddingIdx : Nat) (smoothing : ℚ) (targets : List Nat) : Mat :=
  targets.map (labelSmoothRow size paddingIdx smoothing)

/-- Index of the first maximal entry of a row: `torch.max(·, dim)` returns
the indices of the first maximal value. -/
def argmaxIdx : Vec → Nat
  | [] => 0
  | [_] => 0
  | x :: y :: xs =>
      let j := argmaxIdx (y :: xs)
      if x < (y :: xs).getD j 0 then j + 1 else 0

/-- The next-token log-probability function of the trained model, as the
decoding strategies consume it: `generator(decode(memory, src_mask, ys,
subsequent_mask)[:, -1])` applied to one hypothesis row `ys`.  The encoder
memory and source mask are fixed throughout a decode, so they are folded
into the function. -/
abbrev ModelFn := List Nat → Vec

/-- One iteration of the `greedy_decode` loop in `utils.py`: decode the
current sequence, take the generator's output at the last position, append
the argmax token. -/
def greedyStep (M : ModelFn) (ys : List Nat) : List Nat :=
  ys ++ [argmaxIdx (M ys)]

/-- The sequence `greedy_decode` holds after `n` loop iterations, starting
from the single start symbol. -/
def greedySeq (M : ModelFn) (startSymbol : Nat) : Nat → List Nat
  | 0 => [startSymbol]
  | n + 1 => greedyStep M (greedySeq M startSymbol n)

/-- `greedy_decode` in `utils.py`: `max_len - 1` argmax extensions of the
start symbol, with no early exit of any kind. -/
def greedy_decode (M : ModelFn) (maxLen startSymbol : Nat) : List Nat :=
  greedySeq M startSymbol (maxLen - 1)

/-- Pair each entry of a row with its index, starting at `n` (the index
arithmetic behind `flatten()` followed by `topk`). -/
def idxed : Vec → Nat → List (Nat × ℚ)
  | [], _ => []
  | x :: xs, n => (n, x) :: idxed xs (n + 1)

/-- Remove the first maximal-value pair from a list of (index, value)
pairs, returning it and the remaining pairs; `none` on the empty list.
Ties resolve toward the earlier pair, matching `torch.topk`'s stable
ordering and `torch.max`'s first-maximal-index rule. -/
def selectMax : List (Nat × ℚ) → Option ((Nat × ℚ) × List (Nat × ℚ))
  | [] => none
  | (i, x) :: rest =>
      match selectMax rest with
      | none => some ((i, x), [])
      | some ((j, y), rest2) =>
          if x < y then some ((j, y), (i, x) :: rest2) else some ((i, x), rest)

/-- `torch.topk(l, k)` on an indexed row: the `k` largest (index, value)
pairs in descending value order. -/
def topkAux : Nat → List (Nat × ℚ) → List (Nat × ℚ)
  | 0, _ => []
  | k + 1, pairs =>
      match selectMax pairs with
      | none => []
      | some (p, rest) => p :: topkAux k rest

/-- The live state of `beam_search_decode`: the hypothesis rows `ys`, their
cumulative log-probability `scores`, and — for the encoder-memory
expansion statement — the current number of batch copies of the encoder
memory and how many times the expansion statement has executed. -/
structure BeamState where
  ys : List (List Nat)
  scores : Vec
  memRows : Nat
  expansions : Nat
deriving DecidableEq

/-- `ys[:, -1]` for one hypothesis row. -/
def lastTok (row : List Nat) : Nat := row.getLastD 0

/-- The `prob` tensor after `prob[ys[:, -1] == end_idx, :] = 0`: the
model's log-probabilities per hypothesis, with the rows of already-ended
hypotheses zeroed. -/
def beamProb (M : ModelFn) (endIdx : Nat) (st : BeamState) : Mat :=
  st.ys.map (fun row =>
    if lastTok row = endIdx then List.replicate (M row).length 0 else M row)

/-- The `combined` tensor: on the first iteration just `prob`, afterwards
each hypothesis's cumulative score added to its whole log-probability
row. -/
def beamCombined (M : ModelFn) (endIdx i : Nat) (st : BeamState) : Mat :=
  let prob := beamProb M endIdx st
  if i = 0 then prob
  else List.zipWith (fun s p => p.map (fun q => s + q)) st.scores prob

/-- `torch.topk(combined.flatten(), beam_size)`: the joint top-k over all
(hypothesis, token) pairs, as (flat index, value) pairs. -/
def beamSel (M : ModelFn) (endIdx beamSize i : Nat) (st : BeamState) : List (Nat × ℚ) :=
  topkAux beamSize (idxed (beamCombined M endIdx i st).flatten 0)

/-- The loop body of `beam_search_decode` up to the `break` test: compute
`prob` and `combined`, select the joint top `beam_size` flat indices,
split them into parent rows and token columns by `div`/`mod`
`combined.size(1)`, and extend each selected parent — with the end marker
when the parent's (zeroed) probability entry is 0, with the chosen token
otherwise.  Also returns `rows[beam_size - 1]`, the value the shadowed
Python loop variable `i` holds after the inner `for k` loop, which the
source's expansion guard `if i == 0` then tests. -/
def beamStep (M : ModelFn) (endIdx beamSize i : Nat) (st : BeamState) :
    BeamState × Nat :=
  let prob := beamProb M endIdx st
  let combined := beamCombined M endIdx i st
  let width := dim1 combined
  let sel := beamSel M endIdx beamSize i st
  let rows := sel.map (fun p => p.1 / width)
  let cols := sel.map (fun p => p.1 % width)
  let newScores := sel.map (fun p => p.2)
  let newys := List.zipWith (fun r c =>
      (st.ys.getD r []) ++
        [if (prob.getD r []).getD c 0 = 0 then endIdx else c]) rows cols
  ({ ys := newys, scores := newScores, memRows := st.memRows,
     expansions := st.expansions }, rows.getLastD 0)

/-- The `break` test `(ys[:, -1] == end_idx).sum() == beam_size`. -/
def allEndedB (endIdx beamSize : Nat) (ys : List (List Nat)) : Bool :=
  (ys.filter (fun r => lastTok r == endIdx)).length == beamSize

/-- The expansion statement `memory = memory.expand(beam_size, ...)` (and
likewise `src_mask`), executed when the source's guard `if i == 0` fires —
`i` being the shadowed inner-loop value `rows[beam_size - 1]`, not the
step index. -/
def beamExpand (beamSize : Nat) (st : BeamState) : BeamState :=
  { st with memRows := beamSize, expansions := st.expansions + 1 }

/-- The `for i in range(max_len - 1)` loop of `beam_search_decode`:
`fuel` iterations remain, `i` is the loop index.  Each iteration runs the
step, breaks if all `beam_size` hypotheses end with `end_idx`, and
otherwise executes the expansion statement exactly when
`rows[beam_size - 1] == 0`.  Returns the final state and the number of
iterations executed. -/
def beamRun (M : ModelFn) (endIdx beamSize : Nat) :
    Nat → Nat → BeamState → BeamState × Nat
  | 0, _, st => (st, 0)
  | fuel + 1, i, st =>
      let p := beamStep M endIdx beamSize i st
      if allEndedB endIdx beamSize p.1.ys then (p.1, 1)
      else
        let st2 := if p.2 = 0 then beamExpand beamSize p.1 else p.1
        let q := beamRun M endIdx beamSize fuel (i + 1) st2
        (q.1, q.2 + 1)

/-- The state the loop would reach after `n` iterations if no break
occurred: the same step and expansion guard as `beamRun`, iterated
unconditionally.  Until the first break the two agree. -/
def beamTrace (M : ModelFn) (endIdx beamSize : Nat) :
    Nat → Nat → BeamState → BeamState
  | 0, _, st => st
  | n + 1, i, st =>
      let p := beamStep M endIdx beamSize i st
      beamTrace M endIdx beamSize n (i + 1)
        (if p.2 = 0 then beamExpand beamSize p.1 else p.1)

/-- The initial beam state: one hypothesis holding the start symbol, score
0, a single (unexpanded) copy of the encoder memory. -/
def beamInit (startSymbol : Nat) : BeamState :=
  { ys := [[startSymbol]], scores := [0], memRows := 1, expansions := 0 }

/-- The final selection `max(zip(ys, scores), key=...)`: the hypothesis of
the first maximal score (Python's `max` keeps the earliest maximum). -/
def bestSeq (ys : List (List Nat)) (scores : Vec) : List Nat :=
  match selectMax (idxed scores 0) with
  | none => []
  | some (p, _) => ys.getD p.1 []

/-- `beam_search_decode` in `utils.py`, end to end. -/
def beam_search_decode (M : ModelFn) (maxLen startSymbol beamSize endIdx : Nat) :
    List Nat :=
  let r := beamRun M endIdx beamSize (maxLen - 1) 0 (beamInit startSymbol)
  bestSeq r.1.ys r.1.scores

/-- Bracketing in `collate_batch`: the `<s>` id 0, the token ids, the
`</s>` id 1. -/
def processSeq (ids : List Nat) : List Nat := 0 :: ids ++ [1]

/-- `pad(row, (0, max_padding - len(row)), value=pad_id)`: a nonnegative
amount appends that many copies of `pad_id`; a negative amount (the
overflow case the source comments warn about) removes entries from the
end. -/
def padTo (maxPadding padId : Nat) (row : List Nat) : List Nat :=
  if row.length ≤ maxPadding then
    row ++ List.replicate (maxPadding - row.length) padId
  else row.take maxPadding

/-- `collate_batch` in `utils.py`.  The tokenizer-plus-vocabulary
composition for each side is a black box mapping raw text to token ids;
every row is bracketed by `processSeq` and padded (or silently truncated)
to width `max_padding` by `padTo`, then the rows are stacked. -/
def collate_batch {σ τ : Type} (srcF : σ → List Nat) (tgtF : τ → List Nat)
    (batch : List (σ × τ)) (maxPadding padId : Nat) :
    List (List Nat) × List (List Nat) :=
  (batch.map (fun p => padTo maxPadding padId (processSeq (srcF p.1))),
   batch.map (fun p => padTo maxPadding padId (processSeq (tgtF p.2))))

/-! ## General list lemmas -/

theorem getD_map_lt {α β : Type} (f : α → β) (l : List α) (d : α) (e : β) (i : Nat)
    (h : i < l.length) : (l.map f).getD i e = f (l.getD i d) := by
  simp [List.getD, List.getElem?_eq_getElem, h]

theorem getD_set_lt {α : Type} (l : List α) (i : Nat) (a d : α) (h : i < l.length) :
    (l.set i a).getD i d = a := by
  simp [List.getD, List.getElem?_set_self', List.getElem?_eq_getElem, h]

theorem getD_set_ne {α : Type} (l : List α) (i j : Nat) (a d : α) (h : i ≠ j) :
    (l.set i a).getD j d = l.getD j d := by
  simp [List.getD, List.getElem?_set_ne h]

/-! ## Claim theorems: attention masking -/

/-- Claim C10: for every rank-2 mask of shape `(N, Lk)`,
`MultiHeadedAttention.forward` applies no masking at all — only rank-3
masks are detected by the `len(mask.shape) == 3` test — so its output
equals the output of the very same call with `mask = None`. -/
theorem mha_mask2d_noop (h dk : Nat) (c : ℚ) (smax : Vec → Vec) (drop : T4 → T4)
    (Wq : Mat) (bq : Vec) (Wk : Mat) (bk : Vec) (Wv : Mat) (bv : Vec)
    (Wo : Mat) (bo : Vec) (query key value : T3) (m : List (List Nat)) :
    mhaForward h dk c smax drop Wq bq Wk bk Wv bv Wo bo query key value
        (some (Mask.m2 m)) =
      mhaForward h dk c smax drop Wq bq Wk bk Wv bv Wo bo query key value
        none := rfl

/-- Claim C1, failing input: in `attention`, the rank-2 mask path sets
`Lq = key.shape[1]` — the key length, not the query length — and repeats
the mask that many times, so the expanded mask has shape `(N, Lk, Lk)`.
On a call with `N = 1`, `Lq = 3`, `Lk = 2` and mask `[[1, 0]]` the
expanded mask is `(1, 2, 2)` against `(1, 3, 2)` scores, and
`masked_fill` raises a shape error (first conjunct) instead of masking;
the very same `(1, 3, 2)` score tensor is filled fine when the mask is
expanded to `(N, Lq, Lk)` as the claim prescribes, yielding the `-1e9`
sentinel at every masked position (second conjunct); and on a square call
with `Lq = Lk = 2` the code does succeed (third conjunct), which is why
the slip only shows when `Lq ≠ Lk`. -/
theorem attention_mask2d_shape_error :
    attention 1 id none [[[(1 : ℚ)], [1], [1]]] [[[(1 : ℚ)], [1]]]
        [[[(1 : ℚ)], [1]]] (some (Mask.m2 [[1, 0]])) = none ∧
    maskedFill3 [[[(1 : ℚ), 1], [1, 1], [1, 1]]] (specMask2dExpansion 3 [[1, 0]])
        (-(10 ^ 9 : ℚ)) =
      some [[[(1 : ℚ), -(10 ^ 9 : ℚ)], [1, -(10 ^ 9 : ℚ)], [1, -(10 ^ 9 : ℚ)]]] ∧
    attention 1 id none [[[(1 : ℚ)], [1]]] [[[(1 : ℚ)], [1]]] [[[(1 : ℚ)], [1]]]
        (some (Mask.m2 [[1, 0]])) ≠ none := by
  refine ⟨?_, ?_, ?_⟩
  · norm_num [attention, maskedFill3, dim1, dim2, dot]
  · norm_num [maskedFill3, specMask2dExpansion, dim1, dim2, List.mapIdx_cons,
      List.mapIdx_nil, List.replicate_succ]
  · intro hc
    norm_num [attention, maskedFill3, dim1, dim2, dot, List.replicate_succ,
      List.mapIdx_cons, List.mapIdx_nil] at hc
    exact Option.noConfusion hc

/-- A model with constant next-token log-probabilities `[-1, -2]`: the
argmax is token 0 and, with `end_idx = 1`, no hypothesis ever ends. -/
def constModel : ModelFn := fun _ => [-1, -2]

/-- Claim C2, failing input: with `beam_size = 1` the parent row of every
selected pair is 0, so the shadowed loop variable `i` (holding
`rows[beam_size - 1]` after the inner loop) satisfies `i == 0` on every
iteration, and the memory-expansion statement executes on every iteration
— here twice in a two-iteration run (`max_len = 3`) that never breaks —
not exactly once after the first step as the claim states. -/
theorem beam_expansion_guard_shadowed :
    (beamRun constModel 1 1 2 0 (beamInit 0)).1.expansions = 2 ∧
    (beamRun constModel 1 1 2 0 (beamInit 0)).2 = 2 := by
  norm_num [beamRun, beamStep, beamProb, beamCombined, beamSel, beamInit,
    beamExpand, allEndedB, lastTok, topkAux, selectMax, idxed, dim1, constModel]

/-! ## Claim theorems: batch collation -/

/-- Claim C8: a batch row whose tokenized source maps to `k` ids with
`k + 2 ≤ max_padding` collates to a row of length exactly `max_padding`
that starts with the start id 0, then the `k` ids, then the end id 1, then
`max_padding - k - 2` copies of `pad_id`. -/
theorem collate_row_format {σ τ : Type} (srcF : σ → List Nat) (tgtF : τ → List Nat)
    (batch : List (σ × τ)) (d : σ × τ) (maxPadding padId r : Nat)
    (hr : r < batch.length)
    (hlen : (srcF (batch.getD r d).1).length + 2 ≤ maxPadding) :
    (collate_batch srcF tgtF batch maxPadding padId).1.getD r [] =
      0 :: srcF (batch.getD r d).1 ++ 1 ::
        List.replicate (maxPadding - (srcF (batch.getD r d).1).length - 2) padId ∧
    ((collate_batch srcF tgtF batch maxPadding padId).1.getD r []).length =
      maxPadding := by
  have hmap : (collate_batch srcF tgtF batch maxPadding padId).1.getD r [] =
      padTo maxPadding padId (processSeq (srcF (batch.getD r d).1)) := by
    unfold collate_batch
    exact getD_map_lt _ batch d [] r hr
  have hplen : (processSeq (srcF (batch.getD r d).1)).length =
      (srcF (batch.getD r d).1).length + 2 := by
    simp [processSeq]
  rw [hmap, padTo, if_pos (by omega : (processSeq (srcF (batch.getD r d).1)).length ≤ maxPadding)]
  constructor
  · rw [hplen]
    simp [processSeq, Nat.sub_sub]
  · rw [List.length_append, List.length_replicate, hplen]
    omega

/-- Claim C9: when the bracketed sequence is longer than `max_padding`,
`collate_batch` raises no length error — `pad` with a negative amount
silently removes entries from the end — so the collated row is the
bracketed sequence truncated to `max_padding` entries (in particular it is
not the bracketed sequence itself: the tail, including the end id, is
gone). -/
theorem collate_overflow_truncates {σ τ : Type} (srcF : σ → List Nat)
    (tgtF : τ → List Nat) (batch : List (σ × τ)) (d : σ × τ)
    (maxPadding padId r : Nat) (hr : r < batch.length)
    (hover : maxPadding < (srcF (batch.getD r d).1).length + 2) :
    (collate_batch srcF tgtF batch maxPadding padId).1.getD r [] =
      (processSeq (srcF (batch.getD r d).1)).take maxPadding ∧
    ((collate_batch srcF tgtF batch maxPadding padId).1.getD r []).length =
      maxPadding ∧
    (collate_batch srcF tgtF batch maxPadding padId).1.getD r [] ≠
      processSeq (srcF (batch.getD r d).1) := by
  have hmap : (collate_batch srcF tgtF batch maxPadding padId).1.getD r [] =
      padTo maxPadding padId (processSeq (srcF (batch.getD r d).1)) := by
    unfold collate_batch
    exact getD_map_lt _ batch d [] r hr
  have hplen : (processSeq (srcF (batch.getD r d).1)).length =
      (srcF (batch.getD r d).1).length + 2 := by
    simp [processSeq]
  have hnot : ¬ (processSeq (srcF (batch.getD r d).1)).length ≤ maxPadding := by
    omega
  rw [hmap, padTo, if_neg hnot]
  refine ⟨rfl, ?_, ?_⟩
  · rw [List.length_take]
    omega
  · intro hcontra
    have := congrArg List.length hcontra
    rw [List.length_take] at this
    omega

/-- Witness for C8 at the claim's concrete instance: `max_padding = 10`,
`pad_id = 2`, a source mapping to the 5 ids `[3, 4, 5, 6, 7]` — the row is
0, the five ids, 1, then three 2's, of length exactly 10. -/
theorem collate_row_format_witness :
    (0 : Nat) < ([([3, 4, 5, 6, 7], [9])] : List (List Nat × List Nat)).length ∧
    (id (([([3, 4, 5, 6, 7], [9])] :
        List (List Nat × List Nat)).getD 0 ([], [])).1).length + 2 ≤ 10 ∧
    ((collate_batch id id [([3, 4, 5, 6, 7], [9])] 10 2).1.getD 0 [] =
      0 :: id (([([3, 4, 5, 6, 7], [9])] :
          List (List Nat × List Nat)).getD 0 ([], [])).1 ++ 1 ::
        List.replicate (10 - (id (([([3, 4, 5, 6, 7], [9])] :
          List (List Nat × List Nat)).getD 0 ([], [])).1).length - 2) 2 ∧
    ((collate_batch id id [([3, 4, 5, 6, 7], [9])] 10 2).1.getD 0 []).length = 10) :=
  ⟨by norm_num, by norm_num,
    collate_row_format id id [([3, 4, 5, 6, 7], [9])] ([], []) 10 2 0
      (by norm_num) (by norm_num)⟩

/-- Witness for C9: with `max_padding = 4` and three ids the bracketed
sequence has length 5, and the collated row is its 4-entry truncation —
no error, the end id gone. -/
theorem collate_overflow_truncates_witness :
    (0 : Nat) < ([([5, 6, 7], [8])] : List (List Nat × List Nat)).length ∧
    (4 : Nat) < (id (([([5, 6, 7], [8])] :
        List (List Nat × List Nat)).getD 0 ([], [])).1).length + 2 ∧
    ((collate_batch id id [([5, 6, 7], [8])] 4 2).1.getD 0 [] =
      (processSeq (id (([([5, 6, 7], [8])] :
        List (List Nat × List Nat)).getD 0 ([], [])).1)).take 4 ∧
    ((collate_batch id id [([5, 6, 7], [8])] 4 2).1.getD 0 []).length = 4 ∧
    (collate_batch id id [([5, 6, 7], [8])] 4 2).1.getD 0 [] ≠
      processSeq (id (([([5, 6, 7], [8])] :
        List (List Nat × List Nat)).getD 0 ([], [])).1)) :=
  ⟨by norm_num, by norm_num,
    collate_overflow_truncates id id [([5, 6, 7], [8])] ([], []) 4 2 0
      (by norm_num) (by norm_num)⟩

/-! ## Claim theorems: greedy decoding -/

theorem greedySeq_length (M : ModelFn) (startSymbol n : Nat) :
    (greedySeq M startSymbol n).length = n + 1 := by
  induction n with
  | zero => rfl
  | succ n ih => simp [greedySeq, greedyStep, ih]

theorem greedySeq_ne_nil (M : ModelFn) (startSymbol n : Nat) :
    greedySeq M startSymbol n ≠ [] := by
  intro h
  have hl := greedySeq_length M startSymbol n
  rw [h] at hl
  simp at hl

theorem greedySeq_headD (M : ModelFn) (startSymbol n : Nat) :
    (greedySeq M startSymbol n).headD 0 = startSymbol := by
  induction n with
  | zero => rfl
  | succ n ih =>
    rw [greedySeq, greedyStep]
    cases h : greedySeq M startSymbol n with
    | nil => exact absurd h (greedySeq_ne_nil M startSymbol n)
    | cons a l =>
      rw [h] at ih
      simpa using ih

theorem greedySeq_take (M : ModelFn) (startSymbol s n : Nat) (h : s ≤ n) :
    (greedySeq M startSymbol n).take (s + 1) = greedySeq M startSymbol s := by
  induction n with
  | zero =>
    have hs : s = 0 := Nat.le_zero.mp h
    subst hs
    rfl
  | succ n ih =>
    rcases Nat.lt_or_ge s (n + 1) with hlt | hge
    · have hs : s ≤ n := Nat.lt_succ_iff.mp hlt
      rw [greedySeq, greedyStep,
        List.take_append_of_le_length (by rw [greedySeq_length]; omega), ih hs]
    · have hs : s = n + 1 := le_antisymm h hge
      subst hs
      apply List.take_of_length_le
      rw [greedySeq_length]

theorem greedySeq_getD (M : ModelFn) (startSymbol s n : Nat) (h : s < n) :
    (greedySeq M startSymbol n).getD (s + 1) 0 =
      argmaxIdx (M (greedySeq M startSymbol s)) := by
  induction n with
  | zero => omega
  | succ n ih =>
    rw [greedySeq, greedyStep]
    rcases Nat.lt_or_ge s n with hlt | hge
    · rw [List.getD_append _ _ _ _ (by rw [greedySeq_length]; omega)]
      exact ih hlt
    · have hs : s = n := by omega
      subst hs
      rw [List.getD_append_right _ _ _ _ (by rw [greedySeq_length])]
      rw [greedySeq_length]
      simp

/-- Claim C5: for `max_len ≥ 1`, `greedy_decode` returns exactly `max_len`
tokens, the first being the start symbol, and for each of the
`max_len - 1` decode steps the appended token is the argmax of the
generator's output on the sequence decoded so far — the loop never exits
early, whatever tokens (including any end-of-sequence token) appear. -/
theorem greedy_decode_fixed_length (M : ModelFn) (maxLen startSymbol : Nat)
    (h : 1 ≤ maxLen) :
    (greedy_decode M maxLen startSymbol).length = maxLen ∧
    (greedy_decode M maxLen startSymbol).headD 0 = startSymbol ∧
    ∀ s, s < maxLen - 1 →
      (greedy_decode M maxLen startSymbol).getD (s + 1) 0 =
        argmaxIdx (M ((greedy_decode M maxLen startSymbol).take (s + 1))) := by
  refine ⟨?_, greedySeq_headD M startSymbol (maxLen - 1), ?_⟩
  · rw [greedy_decode, greedySeq_length]
    omega
  · intro s hs
    rw [greedy_decode, greedySeq_take M startSymbol s (maxLen - 1) (by omega)]
    exact greedySeq_getD M startSymbol s (maxLen - 1) hs

/-- Witness for C5 at `max_len = 3`, start symbol 5 and the constant
model: the hypothesis `1 ≤ 3` holds and the conclusion follows by applying
the theorem there. -/
theorem greedy_decode_fixed_length_witness :
    1 ≤ 3 ∧
    ((greedy_decode constModel 3 5).length = 3 ∧
    (greedy_decode constModel 3 5).headD 0 = 5 ∧
    ∀ s, s < 3 - 1 →
      (greedy_decode constModel 3 5).getD (s + 1) 0 =
        argmaxIdx (constModel ((greedy_decode constModel 3 5).take (s + 1)))) :=
  ⟨by norm_num, greedy_decode_fixed_length constModel 3 5 (by norm_num)⟩

/-! ## Claim theorems: label smoothing -/

theorem getD_replicate_lt {α : Type} (n i : Nat) (a d : α) (h : i < n) :
    (List.replicate n a).getD i d = a := by
  simp [List.getD, List.getElem?_replicate, h]

theorem sum_set_lt (L : Vec) (n : Nat) (a : ℚ) (h : n < L.length) :
    (L.set n a).sum = L.sum + a - L.getD n 0 := by
  rw [List.sum_set, if_pos h]
  have hL : L.sum = (L.take n).sum + (L.getD n 0 + (L.drop (n + 1)).sum) := by
    conv_lhs => rw [← List.take_append_drop n L]
    rw [List.sum_append]
    congr 1
    rw [List.drop_eq_getElem_cons h]
    simp [List.getD, List.getElem?_eq_getElem, h]
  rw [hL]
  ring

/-- Claim C4: for a target row whose true class `t` differs from
`padding_idx`, the smoothed distribution row holds `confidence =
1 - smoothing` at `t`, 0 at `padding_idx`, `smoothing / (size - 2)` at
every other index, and sums to `confidence + smoothing`; rows whose target
is `padding_idx` are zeroed entirely. -/
theorem labelSmoothing_dist_spec (size paddingIdx : Nat) (smoothing : ℚ)
    (targets : List Nat) (r t : Nat) (hr : r < targets.length)
    (ht : targets.getD r 0 = t) (htp : t ≠ paddingIdx)
    (hts : t < size) (hps : paddingIdx < size) (h3 : 3 ≤ size) :
    ((labelSmoothDist size paddingIdx smoothing targets).getD r []).getD t 0 =
      1 - smoothing ∧
    ((labelSmoothDist size paddingIdx smoothing targets).getD r []).getD
      paddingIdx 0 = 0 ∧
    (∀ j, j < size → j ≠ t → j ≠ paddingIdx →
      ((labelSmoothDist size paddingIdx smoothing targets).getD r []).getD j 0 =
        smoothing / ((size : ℚ) - 2)) ∧
    ((labelSmoothDist size paddingIdx smoothing targets).getD r []).sum =
      (1 - smoothing) + smoothing ∧
    (∀ r2, r2 < targets.length → targets.getD r2 0 = paddingIdx →
      (labelSmoothDist size paddingIdx smoothing targets).getD r2 [] =
        List.replicate size 0) := by
  have hrow : (labelSmoothDist size paddingIdx smoothing targets).getD r [] =
      labelSmoothRow size paddingIdx smoothing t := by
    unfold labelSmoothDist
    rw [getD_map_lt _ targets 0 [] r hr, ht]
  have hval : labelSmoothRow size paddingIdx smoothing t =
      ((List.replicate size (smoothing / ((size : ℚ) - 2))).set t
        (1 - smoothing)).set paddingIdx 0 := by
    rw [labelSmoothRow, if_neg htp]
  have hlen1 : ((List.replicate size (smoothing / ((size : ℚ) - 2))).set t
      (1 - smoothing)).length = size := by
    simp
  refine ⟨?_, ?_, ?_, ?_, ?_⟩
  · rw [hrow, hval, getD_set_ne _ _ _ _ _ (fun hc => htp hc.symm),
      getD_set_lt _ _ _ _ (by simpa using hts)]
  · rw [hrow, hval, getD_set_lt _ _ _ _ (by simpa using hps)]
  · intro j hj hjt hjp
    rw [hrow, hval, getD_set_ne _ _ _ _ _ (fun hc => hjp hc.symm),
      getD_set_ne _ _ _ _ _ (fun hc => hjt hc.symm),
      getD_replicate_lt _ _ _ _ hj]
  · have hne2 : ((size : ℚ) - 2) ≠ 0 := by
      have hc3 : (3 : ℚ) ≤ (size : ℚ) := by exact_mod_cast h3
      intro hc
      have : (size : ℚ) = 2 := by linarith
      linarith
    rw [hrow, hval, sum_set_lt _ _ _ (by simpa using hps),
      sum_set_lt _ _ _ (by simpa using hts),
      getD_set_ne _ _ _ _ _ (fun hc => htp hc),
      getD_replicate_lt _ _ _ _ hts, getD_replicate_lt _ _ _ _ hps,
      List.sum_replicate, nsmul_eq_mul]
    field_simp
    ring
  · intro r2 hr2 hpr2
    unfold labelSmoothDist
    rw [getD_map_lt _ targets 0 [] r2 hr2, hpr2, labelSmoothRow, if_pos rfl]

/-- Witness for C4 at the concrete case the claim names: `size = 5`,
`padding_idx = 0`, `smoothing = 1/10`, one target row with true class 2 —
confidence `9/10` at index 2, zero at index 0, `1/30` elsewhere. -/
theorem labelSmoothing_dist_spec_witness :
    (0 : Nat) < 1 ∧ (2 : Nat) ≠ 0 ∧ (2 : Nat) < 5 ∧ (0 : Nat) < 5 ∧ 3 ≤ 5 ∧
    (((labelSmoothDist 5 0 (1 / 10) [2]).getD 0 []).getD 2 0 = 1 - 1 / 10 ∧
    ((labelSmoothDist 5 0 (1 / 10) [2]).getD 0 []).getD 0 0 = 0 ∧
    (∀ j, j < 5 → j ≠ 2 → j ≠ 0 →
      ((labelSmoothDist 5 0 (1 / 10) [2]).getD 0 []).getD j 0 =
        (1 / 10) / ((5 : ℚ) - 2)) ∧
    ((labelSmoothDist 5 0 (1 / 10) [2]).getD 0 []).sum =
      (1 - 1 / 10) + 1 / 10 ∧
    (∀ r2, r2 < ([2] : List Nat).length → ([2] : List Nat).getD r2 0 = 0 →
      (labelSmoothDist 5 0 (1 / 10) [2]).getD r2 [] =
        List.replicate 5 0)) :=
  ⟨by norm_num, by norm_num, by norm_num, by norm_num, by norm_num,
    labelSmoothing_dist_spec 5 0 (1 / 10) [2] 0 2 (by norm_num) rfl
      (by norm_num) (by norm_num) (by norm_num) (by norm_num)⟩

/-! ## Selection lemmas: argmax, indexed rows, selectMax, topk -/

theorem argmaxIdx_lt_length (l : Vec) (h : l ≠ []) : argmaxIdx l < l.length := by
  induction l with
  | nil => exact absurd rfl h
  | cons x xs ih =>
    cases xs with
    | nil => simp [argmaxIdx]
    | cons y ys =>
      rw [argmaxIdx]
      split
      · simpa using ih (by simp)
      · simp

theorem argmaxIdx_map_add (s : ℚ) (l : Vec) :
    argmaxIdx (l.map (fun q => s + q)) = argmaxIdx l := by
  induction l with
  | nil => rfl
  | cons x xs ih =>
    cases xs with
    | nil => rfl
    | cons y ys =>
      have hne : (y :: ys : Vec) ≠ [] := by simp
      have hlt := argmaxIdx_lt_length (y :: ys) hne
      have hfold : ((x :: y :: ys : Vec).map (fun q => s + q)) =
          (s + x) :: ((y :: ys : Vec).map (fun q => s + q)) := by simp
      have htail : ((y :: ys : Vec).map (fun q => s + q)) =
          (s + y) :: (ys.map (fun q => s + q)) := by simp
      rw [hfold, htail]
      simp only [argmaxIdx]
      rw [← htail, ih]
      have hgetD : ((y :: ys : Vec).map (fun q => s + q)).getD (argmaxIdx (y :: ys)) 0 =
          s + (y :: ys : Vec).getD (argmaxIdx (y :: ys)) 0 :=
        getD_map_lt (fun q => s + q) (y :: ys) 0 0 _ hlt
      rw [hgetD]
      by_cases hcmp : x < (y :: ys : Vec).getD (argmaxIdx (y :: ys)) 0
      · rw [if_pos hcmp, if_pos (by linarith)]
      · rw [if_neg hcmp, if_neg (by intro hc; exact hcmp (by linarith))]

theorem idxed_length (l : Vec) (n : Nat) : (idxed l n).length = l.length := by
  induction l generalizing n with
  | nil => rfl
  | cons x xs ih => simp [idxed, ih]

theorem mem_idxed (l : Vec) (n : Nat) (p : Nat × ℚ) (h : p ∈ idxed l n) :
    n ≤ p.1 ∧ p.1 - n < l.length := by
  induction l generalizing n with
  | nil => simp [idxed] at h
  | cons x xs ih =>
    rw [idxed] at h
    rcases List.mem_cons.mp h with h1 | h2
    · subst h1
      simp
    · have := ih (n + 1) h2
      constructor
      · omega
      · simp only [List.length_cons]
        omega

theorem selectMax_ne_none (ps : List (Nat × ℚ)) (h : ps ≠ []) :
    selectMax ps ≠ none := by
  cases ps with
  | nil => exact absurd rfl h
  | cons p rest =>
    obtain ⟨i, x⟩ := p
    rw [selectMax]
    cases hs : selectMax rest with
    | none => simp
    | some q =>
      obtain ⟨⟨j, y⟩, rest2⟩ := q
      by_cases hxy : x < y
      · simp [hxy]
      · simp [hxy]

theorem selectMax_mem (ps : List (Nat × ℚ)) (p : Nat × ℚ) (rest : List (Nat × ℚ))
    (h : selectMax ps = some (p, rest)) : p ∈ ps ∧ ∀ q ∈ rest, q ∈ ps := by
  induction ps generalizing p rest with
  | nil => simp [selectMax] at h
  | cons hd tl ih =>
    obtain ⟨i, x⟩ := hd
    rw [selectMax] at h
    cases hs : selectMax tl with
    | none =>
      rw [hs] at h
      simp at h
      obtain ⟨h1, h2⟩ := h
      subst h1
      subst h2
      exact ⟨List.mem_cons_self _ _, by simp⟩
    | some q =>
      obtain ⟨⟨j, y⟩, rest2⟩ := q
      rw [hs] at h
      have h2 : (if x < y then some ((j, y), (i, x) :: rest2)
          else some ((i, x), tl)) = some (p, rest) := h
      have ihq := ih (j, y) rest2 hs
      by_cases hxy : x < y
      · rw [if_pos hxy] at h2
        simp at h2
        obtain ⟨hp, hrest⟩ := h2
        subst hp
        subst hrest
        refine ⟨List.mem_cons_of_mem _ ihq.1, ?_⟩
        intro q hq
        rcases List.mem_cons.mp hq with hq1 | hq2
        · subst hq1
          exact List.mem_cons_self _ _
        · exact List.mem_cons_of_mem _ (ihq.2 q hq2)
      · rw [if_neg hxy] at h2
        simp at h2
        obtain ⟨hp, hrest⟩ := h2
        subst hp
        subst hrest
        exact ⟨List.mem_cons_self _ _, fun q hq => List.mem_cons_of_mem _ hq⟩

theorem selectMax_rest_length (ps : List (Nat × ℚ)) (p : Nat × ℚ)
    (rest : List (Nat × ℚ)) (h : selectMax ps = some (p, rest)) :
    rest.length + 1 = ps.length := by
  induction ps generalizing p rest with
  | nil => simp [selectMax] at h
  | cons hd tl ih =>
    obtain ⟨i, x⟩ := hd
    rw [selectMax] at h
    cases hs : selectMax tl with
    | none =>
      rw [hs] at h
      simp at h
      cases tl with
      | nil => simp [h.2]
      | cons a b => exact absurd hs (selectMax_ne_none _ (by simp))
    | some q =>
      obtain ⟨⟨j, y⟩, rest2⟩ := q
      rw [hs] at h
      have h2 : (if x < y then some ((j, y), (i, x) :: rest2)
          else some ((i, x), tl)) = some (p, rest) := h
      have ihl := ih (j, y) rest2 hs
      by_cases hxy : x < y
      · rw [if_pos hxy] at h2
        simp at h2
        rw [← h2.2]
        simp only [List.length_cons]
        omega
      · rw [if_neg hxy] at h2
        simp at h2
        rw [← h2.2]
        simp

theorem topkAux_length (k : Nat) (ps : List (Nat × ℚ)) :
    (topkAux k ps).length = min k ps.length := by
  induction k generalizing ps with
  | zero => simp [topkAux]
  | succ k ih =>
    rw [topkAux]
    cases hs : selectMax ps with
    | none =>
      cases ps with
      | nil => simp
      | cons a b => exact absurd hs (selectMax_ne_none _ (by simp))
    | some q =>
      obtain ⟨p, rest⟩ := q
      have hl := selectMax_rest_length ps p rest hs
      simp only [List.length_cons, ih rest]
      omega

theorem topkAux_mem (k : Nat) (ps : List (Nat × ℚ)) (p : Nat × ℚ)
    (h : p ∈ topkAux k ps) : p ∈ ps := by
  induction k generalizing ps with
  | zero => simp [topkAux] at h
  | succ k ih =>
    rw [topkAux] at h
    cases hs : selectMax ps with
    | none => rw [hs] at h; simp at h
    | some q =>
      obtain ⟨q1, rest⟩ := q
      rw [hs] at h
      have hm := selectMax_mem ps q1 rest hs
      rcases List.mem_cons.mp h with h1 | h2
      · subst h1
        exact hm.1
      · exact hm.2 p (ih rest h2)

theorem selectMax_idxed (l : Vec) (n : Nat) (h : l ≠ []) :
    ∃ rest, selectMax (idxed l n) =
      some ((n + argmaxIdx l, l.getD (argmaxIdx l) 0), rest) := by
  induction l generalizing n with
  | nil => exact absurd rfl h
  | cons x xs ih =>
    cases xs with
    | nil =>
      refine ⟨[], ?_⟩
      simp [idxed, selectMax, argmaxIdx]
    | cons y ys =>
      obtain ⟨rest, hrest⟩ := ih (n + 1) (by simp)
      have hstep : selectMax (idxed (x :: y :: ys) n) =
          if x < (y :: ys : Vec).getD (argmaxIdx (y :: ys)) 0 then
            some ((n + 1 + argmaxIdx (y :: ys),
              (y :: ys : Vec).getD (argmaxIdx (y :: ys)) 0), (n, x) :: rest)
          else some ((n, x), idxed (y :: ys) (n + 1)) := by
        rw [idxed, selectMax, hrest]
      rcases lt_or_ge x ((y :: ys : Vec).getD (argmaxIdx (y :: ys)) 0) with hcmp | hcmp
      · refine ⟨(n, x) :: rest, ?_⟩
        rw [hstep, if_pos hcmp]
        simp only [argmaxIdx]
        rw [if_pos hcmp, List.getD_cons_succ]
        have harith : n + 1 + argmaxIdx (y :: ys) = n + (argmaxIdx (y :: ys) + 1) := by
          omega
        rw [harith]
      · refine ⟨idxed (y :: ys) (n + 1), ?_⟩
        rw [hstep, if_neg (not_lt.mpr hcmp)]
        simp only [argmaxIdx]
        rw [if_neg (not_lt.mpr hcmp)]
        simp

/-! ## Rectangular-tensor indexing lemmas -/

theorem headD_mem {α : Type} (l : List α) (d : α) (h : l ≠ []) : l.headD d ∈ l := by
  cases l with
  | nil => exact absurd rfl h
  | cons a t => simp

theorem getD_mem_lt {α : Type} (l : List α) (k : Nat) (d : α) (h : k < l.length) :
    l.getD k d ∈ l := by
  have hgd : l.getD k d = l[k] := by
    simp [List.getD, List.get?_eq_getElem?, List.getElem?_eq_getElem, h]
  rw [hgd]
  exact List.getElem_mem h

theorem getD_zipWith {α β γ : Type} (f : α → β → γ) (as : List α) (bs : List β)
    (da : α) (db : β) (dc : γ) (k : Nat) (ha : k < as.length) (hb : k < bs.length) :
    (List.zipWith f as bs).getD k dc = f (as.getD k da) (bs.getD k db) := by
  induction as generalizing bs k with
  | nil => simp at ha
  | cons a as2 ih =>
    cases bs with
    | nil => simp at hb
    | cons b bs2 =>
      cases k with
      | zero => rfl
      | succ k2 =>
        rw [List.zipWith_cons_cons, List.getD_cons_succ, List.getD_cons_succ,
          List.getD_cons_succ]
        exact ih bs2 k2 (by simpa using ha) (by simpa using hb)

theorem mem_zipWith_ex {α β γ : Type} (f : α → β → γ) (as : List α) (bs : List β)
    (c : γ) (h : c ∈ List.zipWith f as bs) : ∃ a ∈ as, ∃ b ∈ bs, c = f a b := by
  induction as generalizing bs with
  | nil => simp at h
  | cons a as2 ih =>
    cases bs with
    | nil => simp at h
    | cons b bs2 =>
      rw [List.zipWith_cons_cons] at h
      rcases List.mem_cons.mp h with h1 | h2
      · exact ⟨a, by simp, b, by simp, h1⟩
      · obtain ⟨a2, ha2, b2, hb2, hc⟩ := ih bs2 h2
        exact ⟨a2, by simp [ha2], b2, by simp [hb2], hc⟩

theorem flatten_length_rect (l : List Vec) (v : Nat)
    (hrect : ∀ row ∈ l, row.length = v) : l.flatten.length = l.length * v := by
  induction l with
  | nil => simp
  | cons row tl ih =>
    rw [List.flatten_cons, List.length_append, hrect row (by simp),
      ih (fun rr hrr => hrect rr (by simp [hrr]))]
    simp [Nat.succ_mul]
    omega

theorem flatten_getD_rect (l : List Vec) (v r c : Nat)
    (hrect : ∀ row ∈ l, row.length = v) (hr : r < l.length) (hc : c < v) :
    l.flatten.getD (r * v + c) 0 = (l.getD r []).getD c 0 := by
  induction l generalizing r with
  | nil => simp at hr
  | cons row tl ih =>
    rw [List.flatten_cons]
    cases r with
    | zero =>
      simp only [Nat.zero_mul, Nat.zero_add]
      rw [List.getD_append _ _ _ _ (by rw [hrect row (by simp)]; exact hc)]
      rfl
    | succ r2 =>
      have hrl : row.length = v := hrect row (by simp)
      have hidx : (r2 + 1) * v + c = row.length + (r2 * v + c) := by
        rw [Nat.succ_mul, hrl]
        omega
      rw [hidx, List.getD_append_right _ _ _ _ (by omega)]
      have hsub : row.length + (r2 * v + c) - row.length = r2 * v + c := by omega
      rw [hsub, List.getD_cons_succ]
      exact ih r2 (fun rr hrr => hrect rr (by simp [hrr])) (by simpa using hr)

/-! ## Beam-step structure lemmas -/

theorem beamProb_row_length (M : ModelFn) (endIdx vocab : Nat)
    (hM : ∀ s, (M s).length = vocab) (st : BeamState) :
    ∀ row ∈ beamProb M endIdx st, row.length = vocab := by
  intro row hrow
  obtain ⟨r0, hr0, hrw⟩ := List.mem_map.mp hrow
  rw [← hrw]
  split
  · simp [hM]
  · exact hM r0

theorem beamProb_length (M : ModelFn) (endIdx : Nat) (st : BeamState) :
    (beamProb M endIdx st).length = st.ys.length := by
  simp [beamProb]

theorem beamCombined_row_length (M : ModelFn) (endIdx vocab i : Nat)
    (hM : ∀ s, (M s).length = vocab) (st : BeamState)
    (_hs : st.scores.length = st.ys.length) :
    ∀ row ∈ beamCombined M endIdx i st, row.length = vocab := by
  intro row hrow
  rw [beamCombined] at hrow
  split at hrow
  · exact beamProb_row_length M endIdx vocab hM st row hrow
  · obtain ⟨s, hsmem, p, hp, hrw⟩ := mem_zipWith_ex _ _ _ _ hrow
    rw [hrw, List.length_map]
    exact beamProb_row_length M endIdx vocab hM st p hp

theorem beamCombined_length (M : ModelFn) (endIdx i : Nat) (st : BeamState)
    (hs : st.scores.length = st.ys.length) :
    (beamCombined M endIdx i st).length = st.ys.length := by
  rw [beamCombined]
  split
  · exact beamProb_length M endIdx st
  · rw [List.length_zipWith, beamProb_length, hs]
    omega

/-- Claim C3: in one step of `beam_search_decode`, each selected
(hypothesis, token) pair extends its parent hypothesis with the chosen
token, except that a parent whose row was zeroed — which under strictly
negative model log-probabilities happens exactly when the parent has
already ended with `end_idx` — is extended with the end marker `end_idx`
instead; a parent that has not ended is never extended with anything but
the token the joint top-k selected for it. -/
theorem beamStep_extends (M : ModelFn) (endIdx beamSize i vocab : Nat)
    (st : BeamState) (hv : 0 < vocab) (hM : ∀ s, (M s).length = vocab)
    (hys : st.ys ≠ []) (hs : st.scores.length = st.ys.length)
    (hbs : beamSize ≤ st.ys.length * vocab)
    (hneg : ∀ row ∈ st.ys, lastTok row ≠ endIdx → ∀ q ∈ M row, q < 0)
    (k : Nat) (hk : k < beamSize) :
    (beamStep M endIdx beamSize i st).1.ys.getD k [] =
      st.ys.getD (((beamSel M endIdx beamSize i st).getD k (0, 0)).1 / vocab) [] ++
        [if lastTok (st.ys.getD
              (((beamSel M endIdx beamSize i st).getD k (0, 0)).1 / vocab) []) =
            endIdx then endIdx
         else ((beamSel M endIdx beamSize i st).getD k (0, 0)).1 % vocab] := by
  have hcrow := beamCombined_row_length M endIdx vocab i hM st hs
  have hcl := beamCombined_length M endIdx i st hs
  have hflat : (beamCombined M endIdx i st).flatten.length = st.ys.length * vocab := by
    rw [flatten_length_rect _ vocab hcrow, hcl]
  have hcne : beamCombined M endIdx i st ≠ [] := by
    intro hc
    rw [hc] at hcl
    simp at hcl
    exact hys (List.length_eq_zero.mp hcl.symm)
  have hwidth : dim1 (beamCombined M endIdx i st) = vocab := by
    rw [dim1]
    exact hcrow _ (headD_mem _ [] hcne)
  have hsellen : (beamSel M endIdx beamSize i st).length = beamSize := by
    rw [beamSel, topkAux_length, idxed_length, hflat]
    omega
  have hselmem : (beamSel M endIdx beamSize i st).getD k (0, 0) ∈
      beamSel M endIdx beamSize i st :=
    getD_mem_lt _ k (0, 0) (by rw [hsellen]; exact hk)
  have hidxmem : (beamSel M endIdx beamSize i st).getD k (0, 0) ∈
      idxed (beamCombined M endIdx i st).flatten 0 :=
    topkAux_mem _ _ _ hselmem
  have hidlt : ((beamSel M endIdx beamSize i st).getD k (0, 0)).1 <
      st.ys.length * vocab := by
    have hm := mem_idxed _ 0 _ hidxmem
    rw [hflat] at hm
    omega
  have hrlt : ((beamSel M endIdx beamSize i st).getD k (0, 0)).1 / vocab <
      st.ys.length := (Nat.div_lt_iff_lt_mul hv).mpr hidlt
  have hclt : ((beamSel M endIdx beamSize i st).getD k (0, 0)).1 % vocab < vocab :=
    Nat.mod_lt _ hv
  have hstep : (beamStep M endIdx beamSize i st).1.ys =
      List.zipWith (fun r c => (st.ys.getD r []) ++
          [if ((beamProb M endIdx st).getD r []).getD c 0 = 0 then endIdx else c])
        ((beamSel M endIdx beamSize i st).map
          (fun p => p.1 / dim1 (beamCombined M endIdx i st)))
        ((beamSel M endIdx beamSize i st).map
          (fun p => p.1 % dim1 (beamCombined M endIdx i st))) := rfl
  rw [hstep, hwidth,
    getD_zipWith _ _ _ 0 0 [] k (by rw [List.length_map, hsellen]; exact hk)
      (by rw [List.length_map, hsellen]; exact hk),
    getD_map_lt _ _ (0, 0) 0 k (by rw [hsellen]; exact hk),
    getD_map_lt _ _ (0, 0) 0 k (by rw [hsellen]; exact hk)]
  have hprob : (beamProb M endIdx st).getD
      (((beamSel M endIdx beamSize i st).getD k (0, 0)).1 / vocab) [] =
      (fun row => if lastTok row = endIdx then List.replicate (M row).length 0
        else M row)
        (st.ys.getD (((beamSel M endIdx beamSize i st).getD k (0, 0)).1 / vocab) []) := by
    rw [beamProb]
    exact getD_map_lt _ st.ys [] [] _ hrlt
  rw [hprob]
  by_cases hend : lastTok (st.ys.getD
      (((beamSel M endIdx beamSize i st).getD k (0, 0)).1 / vocab) []) = endIdx
  · rw [if_pos hend]
    simp only [if_pos hend]
    rw [getD_replicate_lt _ _ _ _ (by
      rw [hM]
      exact hclt)]
    simp
  · rw [if_neg hend]
    simp only [if_neg hend]
    have hmem : (M (st.ys.getD
        (((beamSel M endIdx beamSize i st).getD k (0, 0)).1 / vocab) [])).getD
        (((beamSel M endIdx beamSize i st).getD k (0, 0)).1 % vocab) 0 ∈
        M (st.ys.getD (((beamSel M endIdx beamSize i st).getD k (0, 0)).1 / vocab) []) :=
      getD_mem_lt _ _ 0 (by rw [hM]; exact hclt)
    have hlt0 := hneg _ (getD_mem_lt st.ys _ [] hrlt) hend _ hmem
    rw [if_neg (by intro hc; rw [hc] at hlt0; exact absurd hlt0 (by norm_num))]

/-! ## Single-hypothesis beam step -/

theorem lastTok_concat (l : List Nat) (a : Nat) : lastTok (l ++ [a]) = a := by
  simp [lastTok]

theorem topkAux_one (l : Vec) (hne : l ≠ []) :
    topkAux 1 (idxed l 0) = [(argmaxIdx l, l.getD (argmaxIdx l) 0)] := by
  obtain ⟨rest, hsel⟩ := selectMax_idxed l 0 hne
  show topkAux (0 + 1) (idxed l 0) = _
  rw [topkAux, hsel]
  simp [topkAux]

/-- With a single live hypothesis whose `combined` row is `row` (sharing
its argmax with the model output on the hypothesis), the beam step appends
exactly the greedy argmax token and reports parent row 0. -/
theorem beamStep_single_row (M : ModelFn) (endIdx i vocab : Nat) (hv : 0 < vocab)
    (hM : ∀ s, (M s).length = vocab) (hneg : ∀ s, ∀ q ∈ M s, q < 0)
    (g : List Nat) (sc : ℚ) (mr ex : Nat) (row : Vec)
    (hrowArg : argmaxIdx row = argmaxIdx (M g)) (hrowLen : row.length = vocab)
    (hcomb : beamCombined M endIdx i ⟨[g], [sc], mr, ex⟩ = [row])
    (hne : lastTok g ≠ endIdx) :
    beamStep M endIdx 1 i ⟨[g], [sc], mr, ex⟩ =
      (⟨[greedyStep M g], [row.getD (argmaxIdx (M g)) 0], mr, ex⟩, 0) := by
  have hmne : M g ≠ [] := by
    intro hc
    have hl := hM g
    rw [hc] at hl
    simp at hl
    omega
  have hrne : row ≠ [] := by
    intro hc
    rw [hc] at hrowLen
    simp at hrowLen
    omega
  have hargLt : argmaxIdx (M g) < vocab := by
    rw [← hM g]
    exact argmaxIdx_lt_length _ hmne
  have hprob : beamProb M endIdx ⟨[g], [sc], mr, ex⟩ = [M g] := by
    simp [beamProb, hne]
  have hflat : (beamCombined M endIdx i ⟨[g], [sc], mr, ex⟩).flatten = row := by
    rw [hcomb]
    simp
  have hwidth : dim1 (beamCombined M endIdx i ⟨[g], [sc], mr, ex⟩) = vocab := by
    rw [hcomb, dim1]
    simpa using hrowLen
  have hsel : beamSel M endIdx 1 i ⟨[g], [sc], mr, ex⟩ =
      [(argmaxIdx (M g), row.getD (argmaxIdx (M g)) 0)] := by
    rw [beamSel, hflat, topkAux_one row hrne, hrowArg]
  have hnegArg : (M g).getD (argmaxIdx (M g)) 0 < 0 :=
    hneg g _ (getD_mem_lt _ _ 0 (by rw [hM]; exact hargLt))
  simp only [beamStep]
  rw [hsel, hwidth, hprob]
  simp only [List.map_cons, List.map_nil, List.zipWith_cons_cons, List.zipWith_nil_right]
  rw [Nat.div_eq_of_lt hargLt, Nat.mod_eq_of_lt hargLt]
  have hne0 : ¬ ((([M g] : Mat).getD 0 []).getD (argmaxIdx (M g)) 0 = 0) := by
    simp only [List.getD_cons_zero]
    intro hc
    rw [hc] at hnegArg
    exact absurd hnegArg (by norm_num)
  rw [if_neg hne0]
  simp [greedyStep]

/-- With a single hypothesis, the step's `combined` row exists and shares
its argmax with the model output: on the first iteration it is the model
row itself, later the cumulative score added to every entry. -/
theorem beamCombined_beam1 (M : ModelFn) (endIdx i : Nat) (g : List Nat) (sc : ℚ)
    (mr ex : Nat) (hne : lastTok g ≠ endIdx) :
    ∃ row : Vec, beamCombined M endIdx i ⟨[g], [sc], mr, ex⟩ = [row] ∧
      argmaxIdx row = argmaxIdx (M g) ∧ row.length = (M g).length := by
  by_cases hi : i = 0
  · refine ⟨M g, ?_, rfl, rfl⟩
    simp [beamCombined, beamProb, hne, hi]
  · refine ⟨(M g).map (fun q => sc + q), ?_, argmaxIdx_map_add sc (M g), by simp⟩
    simp [beamCombined, beamProb, hne, hi, List.zipWith]

/-! ## Beam run lemmas -/

theorem beamRun_beam1_greedy (M : ModelFn) (endIdx vocab : Nat) (hv : 0 < vocab)
    (hM : ∀ s, (M s).length = vocab) (hneg : ∀ s, ∀ q ∈ M s, q < 0)
    (startSymbol : Nat) :
    ∀ f m st sc, st.ys = [greedySeq M startSymbol m] → st.scores = [sc] →
      (∀ j, m ≤ j → j ≤ m + f → lastTok (greedySeq M startSymbol j) ≠ endIdx) →
      (beamRun M endIdx 1 f m st).1.ys = [greedySeq M startSymbol (m + f)] ∧
      (beamRun M endIdx 1 f m st).2 = f := by
  intro f
  induction f with
  | zero =>
    intro m st sc hys hsc hnoEnd
    simp [beamRun, hys]
  | succ f ih =>
    intro m st sc hys hsc hnoEnd
    obtain ⟨ys0, sc0, mr, ex⟩ := st
    have hys2 : ys0 = [greedySeq M startSymbol m] := hys
    have hsc2 : sc0 = [sc] := hsc
    subst hys2
    subst hsc2
    have hnem : lastTok (greedySeq M startSymbol m) ≠ endIdx :=
      hnoEnd m le_rfl (by omega)
    obtain ⟨row, hcomb, hrowArg, hrowLen⟩ :=
      beamCombined_beam1 M endIdx m (greedySeq M startSymbol m) sc mr ex hnem
    have hstepEq := beamStep_single_row M endIdx m vocab hv hM hneg
      (greedySeq M startSymbol m) sc mr ex row hrowArg (by rw [hrowLen, hM]) hcomb hnem
    have hgs : greedyStep M (greedySeq M startSymbol m) =
        greedySeq M startSymbol (m + 1) := rfl
    have hlast : lastTok (greedySeq M startSymbol (m + 1)) ≠ endIdx :=
      hnoEnd (m + 1) (by omega) (by omega)
    have hAE : allEndedB endIdx 1 [greedySeq M startSymbol (m + 1)] = false := by
      simp [allEndedB, hlast]
    simp only [beamRun]
    rw [hstepEq, hgs]
    simp only [if_neg (by rw [hAE]; simp : ¬ allEndedB endIdx 1
      [greedySeq M startSymbol (m + 1)] = true)]
    simp only [beamExpand, if_pos rfl]
    have hrec := ih (m + 1)
      ⟨[greedySeq M startSymbol (m + 1)], [row.getD (argmaxIdx
        (M (greedySeq M startSymbol m))) 0], 1, ex + 1⟩
      (row.getD (argmaxIdx (M (greedySeq M startSymbol m))) 0) rfl rfl
      (by
        intro j hj1 hj2
        exact hnoEnd j (by omega) (by omega))
    have harith : m + 1 + f = m + (f + 1) := by omega
    rw [harith] at hrec
    exact ⟨hrec.1, congrArg (fun t => t + 1) hrec.2⟩

/-! ## Claim theorems: beam search -/

/-- Claim C6, counterexample: on a model whose log-probabilities are
`[-3, -1, -2]` everywhere, with `start_symbol = end_idx = 0` and
`max_len = 2`, greedy decode appends its argmax token 1, while beam search
with `beam_size = 1` zeroes the start hypothesis's distribution (its last
token equals `end_idx`), selects flat index 0 and — because the selected
entry is 0 — appends the end marker 0: the two strategies choose different
tokens at the very first decoding step, so the claim's universal statement
fails. -/
def divergeModel : ModelFn := fun _ => [-3, -1, -2]

theorem beam1_not_greedy_counterexample :
    (beamRun divergeModel 0 1 1 0 (beamInit 0)).1.ys = [[0, 0]] ∧
    greedy_decode divergeModel 2 0 = [0, 1] ∧
    beam_search_decode divergeModel 2 0 1 0 = [0, 0] ∧
    (beamRun divergeModel 0 1 1 0 (beamInit 0)).1.ys ≠
      [greedy_decode divergeModel 2 0] := by
  refine ⟨?h1, ?h2, ?h3, ?h4⟩
  case h1 =>
    norm_num [beamRun, beamStep, beamProb, beamCombined, beamSel, beamInit,
      beamExpand, allEndedB, lastTok, topkAux, selectMax, idxed, dim1,
      divergeModel]
  case h2 =>
    norm_num [greedy_decode, greedySeq, greedyStep, argmaxIdx, divergeModel]
  case h3 =>
    norm_num [beam_search_decode, beamRun, beamStep, beamProb, beamCombined,
      beamSel, beamInit, beamExpand, allEndedB, lastTok, topkAux, selectMax,
      idxed, dim1, divergeModel, bestSeq]
  case h4 =>
    have hb : (beamRun divergeModel 0 1 1 0 (beamInit 0)).1.ys = [[0, 0]] := by
      norm_num [beamRun, beamStep, beamProb, beamCombined, beamSel, beamInit,
        beamExpand, allEndedB, lastTok, topkAux, selectMax, idxed, dim1,
        divergeModel]
    have hg : greedy_decode divergeModel 2 0 = [0, 1] := by
      norm_num [greedy_decode, greedySeq, greedyStep, argmaxIdx, divergeModel]
    rw [hb, hg]
    simp

/-- Claim C6 as amended: provided the generator's log-probabilities are
strictly negative (true of exact log-softmax outputs) and the start symbol
differs from `end_idx`, then on any run in which greedy decode never picks
the end token within the step budget, `beam_search_decode` with
`beam_size = 1` executes all `max_len - 1` steps and its single hypothesis
is exactly the greedy sequence — the top-1 choice equals greedy's argmax,
step for step.  (When the end token is reached, or when
`start_symbol = end_idx`, the two can diverge: see the counterexample.) -/
theorem beam1_matches_greedy (M : ModelFn) (endIdx startSymbol maxLen vocab : Nat)
    (hv : 0 < vocab) (hM : ∀ s, (M s).length = vocab)
    (hneg : ∀ s, ∀ q ∈ M s, q < 0) (hse : startSymbol ≠ endIdx)
    (hnoEnd : ∀ j, 1 ≤ j → j ≤ maxLen - 1 →
      lastTok (greedySeq M startSymbol j) ≠ endIdx) :
    (beamRun M endIdx 1 (maxLen - 1) 0 (beamInit startSymbol)).1.ys =
      [greedy_decode M maxLen startSymbol] ∧
    (beamRun M endIdx 1 (maxLen - 1) 0 (beamInit startSymbol)).2 = maxLen - 1 := by
  have hmain := beamRun_beam1_greedy M endIdx vocab hv hM hneg startSymbol
    (maxLen - 1) 0 (beamInit startSymbol) 0 rfl rfl ?hno
  · rw [greedy_decode]
    constructor
    · rw [hmain.1]
      norm_num
    · exact hmain.2
  case hno =>
    intro j h0 hj
    cases Nat.eq_zero_or_pos j with
    | inl hz =>
      subst hz
      simpa [greedySeq, lastTok] using hse
    | inr hpos => exact hnoEnd j hpos (by omega)

/-- Witness for C6 (amended) with the constant model `[-1, -2]`,
`end_idx = 1`, start symbol 0, `max_len = 3`, vocabulary 2: all hypotheses
hold concretely and beam-1 reproduces greedy's tokens over both steps. -/
theorem beam1_matches_greedy_witness :
    (0 : Nat) < 2 ∧ (∀ s, (constModel s).length = 2) ∧
    (∀ s, ∀ q ∈ constModel s, q < 0) ∧ (0 : Nat) ≠ 1 ∧
    (∀ j, 1 ≤ j → j ≤ 3 - 1 → lastTok (greedySeq constModel 0 j) ≠ 1) ∧
    ((beamRun constModel 1 1 (3 - 1) 0 (beamInit 0)).1.ys =
      [greedy_decode constModel 3 0] ∧
     (beamRun constModel 1 1 (3 - 1) 0 (beamInit 0)).2 = 3 - 1) :=
  ⟨by norm_num, fun _ => rfl,
    by
      intro s q hq
      simp only [constModel, List.mem_cons, List.not_mem_nil, or_false] at hq
      rcases hq with h | h <;> rw [h] <;> norm_num,
    by norm_num,
    by
      intro j h1 h2
      have hj : j = 1 ∨ j = 2 := by omega
      rcases hj with h | h <;> subst h <;>
        norm_num [greedySeq, greedyStep, argmaxIdx, lastTok, constModel],
    beam1_matches_greedy constModel 1 0 3 2 (by norm_num) (fun _ => rfl)
      (by
        intro s q hq
        simp only [constModel, List.mem_cons, List.not_mem_nil, or_false] at hq
        rcases hq with h | h <;> rw [h] <;> norm_num)
      (by norm_num)
      (by
        intro j h1 h2
        have hj : j = 1 ∨ j = 2 := by omega
        rcases hj with h | h <;> subst h <;>
          norm_num [greedySeq, greedyStep, argmaxIdx, lastTok, constModel])⟩

theorem ite_expand_ys (bs : Nat) (c : Prop) [Decidable c] (s : BeamState) :
    (if c then beamExpand bs s else s).ys = s.ys := by
  split <;> rfl

theorem beamRun_stops_after_allEnded (M : ModelFn) (endIdx beamSize : Nat) :
    ∀ n fuel i st, n < fuel →
      allEndedB endIdx beamSize
        (beamTrace M endIdx beamSize (n + 1) i st).ys = true →
      (beamRun M endIdx beamSize fuel i st).2 ≤ n + 1 := by
  intro n
  induction n with
  | zero =>
    intro fuel i st hf hEnd
    cases fuel with
    | zero => omega
    | succ f =>
      have hEnd2 : allEndedB endIdx beamSize
          (beamStep M endIdx beamSize i st).1.ys = true := by
        have htr : beamTrace M endIdx beamSize (0 + 1) i st =
            (if (beamStep M endIdx beamSize i st).2 = 0 then
              beamExpand beamSize (beamStep M endIdx beamSize i st).1
            else (beamStep M endIdx beamSize i st).1) := rfl
        rw [htr, ite_expand_ys] at hEnd
        exact hEnd
      simp only [beamRun]
      rw [if_pos hEnd2]
  | succ n ih =>
    intro fuel i st hf hEnd
    cases fuel with
    | zero => omega
    | succ f =>
      simp only [beamRun]
      by_cases hA : allEndedB endIdx beamSize
          (beamStep M endIdx beamSize i st).1.ys = true
      · rw [if_pos hA]
        omega
      · rw [if_neg hA]
        have hEnd2 : allEndedB endIdx beamSize
            (beamTrace M endIdx beamSize (n + 1) (i + 1)
              (if (beamStep M endIdx beamSize i st).2 = 0 then
                beamExpand beamSize (beamStep M endIdx beamSize i st).1
              else (beamStep M endIdx beamSize i st).1)).ys = true := hEnd
        have hrec := ih f (i + 1) _ (by omega) hEnd2
        show (beamRun M endIdx beamSize f (i + 1)
            (if (beamStep M endIdx beamSize i st).2 = 0 then
              beamExpand beamSize (beamStep M endIdx beamSize i st).1
            else (beamStep M endIdx beamSize i st).1)).2 + 1 ≤ n + 1 + 1
        omega

/-- Claim C7: the decoding loop stops as soon as all `beam_size`
hypotheses end with `end_idx`: if they have all ended after `n + 1 ≤
max_len - 2` iterations, the loop executes at most `n + 1` iterations,
strictly fewer than its `max_len - 1` budget. -/
theorem beam_search_early_exit (M : ModelFn)
    (endIdx beamSize startSymbol maxLen n : Nat) (hn : n + 1 ≤ maxLen - 2)
    (hEnd : allEndedB endIdx beamSize
      (beamTrace M endIdx beamSize (n + 1) 0 (beamInit startSymbol)).ys = true) :
    (beamRun M endIdx beamSize (maxLen - 1) 0 (beamInit startSymbol)).2 ≤ n + 1 ∧
    (beamRun M endIdx beamSize (maxLen - 1) 0 (beamInit startSymbol)).2 <
      maxLen - 1 := by
  have h1 := beamRun_stops_after_allEnded M endIdx beamSize n (maxLen - 1) 0
    (beamInit startSymbol) (by omega) hEnd
  exact ⟨h1, by omega⟩

/-- A model that always favours token 1; with `end_idx = 1` every
hypothesis ends on its first extension. -/
def endingModel : ModelFn := fun _ => [-2, -1]

/-- Witness for C7: with the ending-favouring model, `beam_size = 1`,
`end_idx = 1` and `max_len = 4`, the single hypothesis has ended after one
iteration (`n = 0`, and `0 + 1 ≤ 4 - 2`), and the loop indeed stops after
one of its three budgeted iterations. -/
theorem beam_search_early_exit_witness :
    (0 : Nat) + 1 ≤ 4 - 2 ∧
    allEndedB 1 1 (beamTrace endingModel 1 1 (0 + 1) 0 (beamInit 0)).ys = true ∧
    ((beamRun endingModel 1 1 (4 - 1) 0 (beamInit 0)).2 ≤ 0 + 1 ∧
     (beamRun endingModel 1 1 (4 - 1) 0 (beamInit 0)).2 < 4 - 1) :=
  ⟨by norm_num,
    by
      norm_num [beamTrace, beamStep, beamProb, beamCombined, beamSel, beamInit,
        beamExpand, allEndedB, lastTok, topkAux, selectMax, idxed, dim1,
        endingModel],
    beam_search_early_exit endingModel 1 1 0 4 0 (by norm_num)
      (by
        norm_num [beamTrace, beamStep, beamProb, beamCombined, beamSel, beamInit,
          beamExpand, allEndedB, lastTok, topkAux, selectMax, idxed, dim1,
          endingModel])⟩

/-- A beam state in which hypothesis 0 has already ended (last token is
the end index 1) and hypothesis 1 has not. -/
def endedBeamState : BeamState :=
  { ys := [[0, 1], [0, 3]], scores := [-1, -2], memRows := 2, expansions := 1 }

/-- A model over a four-token vocabulary with constant strictly negative
log-probabilities. -/
def smallModel : ModelFn := fun _ => [-1, -2, -3, -4]

/-- Witness for C3 on a two-hypothesis state with one ended parent: all
hypotheses hold concretely and the selected pair `k = 0` extends its
parent according to the claim. -/
theorem beamStep_extends_witness :
    (0 : Nat) < 4 ∧ (∀ s, (smallModel s).length = 4) ∧
    endedBeamState.ys ≠ [] ∧
    endedBeamState.scores.length = endedBeamState.ys.length ∧
    (2 : Nat) ≤ endedBeamState.ys.length * 4 ∧
    (∀ row ∈ endedBeamState.ys, lastTok row ≠ 1 → ∀ q ∈ smallModel row, q < 0) ∧
    (0 : Nat) < 2 ∧
    ((beamStep smallModel 1 2 1 endedBeamState).1.ys.getD 0 [] =
      endedBeamState.ys.getD
          (((beamSel smallModel 1 2 1 endedBeamState).getD 0 (0, 0)).1 / 4) [] ++
        [if lastTok (endedBeamState.ys.getD
              (((beamSel smallModel 1 2 1 endedBeamState).getD 0 (0, 0)).1 / 4) []) =
            1 then 1
         else ((beamSel smallModel 1 2 1 endedBeamState).getD 0 (0, 0)).1 % 4]) :=
  ⟨by norm_num, fun _ => rfl, by simp [endedBeamState], by simp [endedBeamState],
    by simp [endedBeamState],
    by
      intro row hrow hne q hq
      simp only [smallModel, List.mem_cons, List.not_mem_nil, or_false] at hq
      rcases hq with h | h | h | h <;> rw [h] <;> norm_num,
    by norm_num,
    beamStep_extends smallModel 1 2 1 4 endedBeamState (by norm_num) (fun _ => rfl)
      (by simp [endedBeamState]) (by simp [endedBeamState])
      (by simp [endedBeamState])
      (by
        intro row hrow hne q hq
        simp only [smallModel, List.mem_cons, List.not_mem_nil, or_false] at hq
        rcases hq with h | h | h | h <;> rw [h] <;> norm_num)
      0 (by norm_num)⟩

end NMT
